import Mathlib

/-!
Verification of the Merkle tree engine (questions 2, 3, 5 and 6 of the
repository). The Python class `MerkleTree` is embedded shallowly: hashes are
the 64-character lowercase hex strings produced by SHA-256, the tree is a
list of levels (each a list of hex strings), fallible methods return
`Except`, and the Python `None` root is `Option.none`. SHA-256 itself is
implemented executably over `Nat` so that concrete trees evaluate inside
the kernel.
-/

set_option maxRecDepth 1000000

/-! ## SHA-256 over byte lists (bytes are `Nat` values below 256) -/

/-- Rotate a 32-bit word right by n bits. -/
def rotr32 (x n : Nat) : Nat := ((x >>> n) ||| (x <<< (32 - n))) % 4294967296

def smallSigma0 (x : Nat) : Nat := (rotr32 x 7) ^^^ (rotr32 x 18) ^^^ (x >>> 3)

def smallSigma1 (x : Nat) : Nat := (rotr32 x 17) ^^^ (rotr32 x 19) ^^^ (x >>> 10)

def bigSigma0 (x : Nat) : Nat := (rotr32 x 2) ^^^ (rotr32 x 13) ^^^ (rotr32 x 22)

def bigSigma1 (x : Nat) : Nat := (rotr32 x 6) ^^^ (rotr32 x 11) ^^^ (rotr32 x 25)

def chF (e f g : Nat) : Nat := (e &&& f) ^^^ ((e ^^^ 4294967295) &&& g)

def majF (a b c : Nat) : Nat := (a &&& b) ^^^ (a &&& c) ^^^ (b &&& c)

def sha256K : List Nat :=
  [1116352408, 1899447441, 3049323471, 3921009573, 961987163,
   1508970993, 2453635748, 2870763221, 3624381080, 310598401,
   607225278, 1426881987, 1925078388, 2162078206, 2614888103,
   3248222580, 3835390401, 4022224774, 264347078, 604807628,
   770255983, 1249150122, 1555081692, 1996064986, 2554220882,
   2821834349, 2952996808, 3210313671, 3336571891, 3584528711,
   113926993, 338241895, 666307205, 773529912, 1294757372,
   1396182291, 1695183700, 1986661051, 2177026350, 2456956037,
   2730485921, 2820302411, 3259730800, 3345764771, 3516065817,
   3600352804, 4094571909, 275423344, 430227734, 506948616,
   659060556, 883997877, 958139571, 1322822218, 1537002063,
   1747873779, 1955562222, 2024104815, 2227730452, 2361852424,
   2428436474, 2756734187, 3204031479, 3329325298]

def sha256H0 : List Nat :=
  [1779033703, 3144134277, 1013904242, 2773480762, 1359893119,
   2600822924, 528734635, 1541459225]

/-- Big-endian byte encoding of v in k bytes. -/
def beBytes : Nat → Nat → List Nat
  | 0, _ => []
  | k+1, v => beBytes k (v / 256) ++ [v % 256]

/-- SHA-256 padding: append 0x80, zeros, and the 64-bit big-endian bit length. -/
def sha256Pad (msg : List Nat) : List Nat :=
  let rem := (msg.length + 1) % 64
  let zeros := (64 + 56 - rem) % 64
  msg ++ [0x80] ++ List.replicate zeros 0 ++ beBytes 8 (msg.length * 8)

/-- Group bytes into big-endian 32-bit words. -/
def wordsOfBytes : List Nat → List Nat
  | b0 :: b1 :: b2 :: b3 :: rest =>
      (((b0 * 256 + b1) * 256 + b2) * 256 + b3) :: wordsOfBytes rest
  | _ => []

/-- Extend the 16 message-schedule words to 64. -/
def extendW : Nat → List Nat → List Nat
  | 0, w => w
  | fuel+1, w =>
      let i := w.length
      let nw := (smallSigma1 (w.getD (i - 2) 0) + w.getD (i - 7) 0 +
                 smallSigma0 (w.getD (i - 15) 0) + w.getD (i - 16) 0) % 4294967296
      extendW fuel (w ++ [nw])

/-- The 64 SHA-256 compression rounds. -/
def sha256Rounds : List Nat → List Nat → List Nat → List Nat
  | k :: ks, w :: ws, [a, b, c, d, e, f, g, h] =>
      let t1 := (h + bigSigma1 e + chF e f g + k + w) % 4294967296
      let t2 := (bigSigma0 a + majF a b c) % 4294967296
      sha256Rounds ks ws [(t1 + t2) % 4294967296, a, b, c, (d + t1) % 4294967296, e, f, g]
  | _, _, st => st

/-- Process one 64-byte block. -/
def processBlock (st block : List Nat) : List Nat :=
  let w := extendW 48 (wordsOfBytes block)
  let st2 := sha256Rounds sha256K w st
  List.zipWith (fun x y => (x + y) % 4294967296) st st2

/-- Process the padded message 64 bytes at a time (fuel-driven so it reduces
in the kernel; the fuel `padded.length` always suffices). -/
def processBlocks : Nat → List Nat → List Nat → List Nat
  | _, st, [] => st
  | 0, st, _ => st
  | fuel+1, st, bs => processBlocks fuel (processBlock st (bs.take 64)) (bs.drop 64)

def hexChar (n : Nat) : Char := Char.ofNat (if n < 10 then 48 + n else 87 + n)

def word32hex (w : Nat) : List Char :=
  [hexChar ((w >>> 28) &&& 15), hexChar ((w >>> 24) &&& 15), hexChar ((w >>> 20) &&& 15),
   hexChar ((w >>> 16) &&& 15), hexChar ((w >>> 12) &&& 15), hexChar ((w >>> 8) &&& 15),
   hexChar ((w >>> 4) &&& 15), hexChar (w &&& 15)]

/-- SHA-256 of a byte list, as a 64-character lowercase hex string, matching
Python `hashlib.sha256(data).hexdigest()`. -/
def sha256hex (msg : List Nat) : String :=
  let padded := sha256Pad msg
  let st := processBlocks padded.length sha256H0 padded
  String.mk (st.map word32hex).flatten

/-- UTF-8 encoding of one character. -/
def utf8EncodeChar (c : Char) : List Nat :=
  let n := c.toNat
  if n < 0x80 then [n]
  else if n < 0x800 then [0xC0 ||| (n >>> 6), 0x80 ||| (n &&& 0x3F)]
  else if n < 0x10000 then
    [0xE0 ||| (n >>> 12), 0x80 ||| ((n >>> 6) &&& 0x3F), 0x80 ||| (n &&& 0x3F)]
  else
    [0xF0 ||| (n >>> 18), 0x80 ||| ((n >>> 12) &&& 0x3F),
     0x80 ||| ((n >>> 6) &&& 0x3F), 0x80 ||| (n &&& 0x3F)]

/-- UTF-8 encoding of a string as a byte list, matching Python
`data.encode('utf-8')`. -/
def utf8Bytes (s : String) : List Nat := (s.data.map utf8EncodeChar).flatten

/-! ## Items: raw strings and structured records (question6) -/

/-- Scalar JSON values appearing in the records fed to the tree. -/
inductive JVal where
  | jstr : String → JVal
  | jnum : Int → JVal
deriving DecidableEq

/-- An input item: a plain string, or a record (Python dict) kept as a
key/value list in insertion order. -/
inductive Item where
  | str : String → Item
  | dict : List (String × JVal) → Item
deriving DecidableEq

/-- `_hash_data` restricted to the string path: SHA-256 of the raw UTF-8
bytes (`hashlib.sha256(data.encode('utf-8')).hexdigest()`). -/
def hash_str (s : String) : String := sha256hex (utf8Bytes s)

def jsonShowVal : JVal → String
  | .jstr s => "\"" ++ s ++ "\""
  | .jnum n => toString n

def jsonPair (p : String × JVal) : String := "\"" ++ p.1 ++ "\": " ++ jsonShowVal p.2

/-- The key order relation used to serialize records: compare keys. -/
def keyLE (a b : String × JVal) : Prop := a.1 ≤ b.1

instance : DecidableRel keyLE := fun a b => inferInstanceAs (Decidable (a.1 ≤ b.1))

/-- `json.dumps(data, sort_keys=True)`: keys sorted, default separators
(", " and ": "). -/
def json_dumps_sorted (l : List (String × JVal)) : String :=
  let sorted := l.insertionSort keyLE
  "\x7b" ++ String.intercalate ", " (sorted.map jsonPair) ++ "\x7d"

/-- `MerkleTree._hash_data` of question6: dicts are serialized to sorted
JSON first, strings are encoded to UTF-8 directly, then SHA-256. -/
def hash_data : Item → String
  | .dict l => hash_str (json_dumps_sorted l)
  | .str s => hash_str s

/-! ## Tree construction (`_build_tree`) -/

/-- One pass of the pairing loop `for i in range(0, len(current_level), 2)`:
the unpaired last node is duplicated as its own sibling. -/
def build_level : List String → List String
  | [] => []
  | [x] => [hash_str (x ++ x)]
  | x :: y :: rest => hash_str (x ++ y) :: build_level rest

/-- The `while len(current_level) > 1` loop of `_build_tree`, written with
explicit fuel so it reduces in the kernel; `cur.length` fuel always
suffices because each level is strictly shorter than the one below. -/
def buildRestFuel : Nat → List String → List (List String)
  | 0, _ => []
  | fuel+1, cur =>
    if 1 < cur.length then
      let nxt := build_level cur
      nxt :: buildRestFuel fuel nxt
    else []

/-- `MerkleTree._build_tree`: the leaf level followed by each built level. -/
def build_tree (leaves : List String) : List (List String) :=
  leaves :: buildRestFuel leaves.length leaves

/-- The state of a `MerkleTree` object: its `leaves` and `tree` fields. -/
structure MerkleTree where
  leaves : List String
  tree : List (List String)
deriving DecidableEq

/-- `MerkleTree.__init__`: hash every item, then build the tree. -/
def mkTree (data_list : List Item) : MerkleTree :=
  let ls := data_list.map hash_data
  { leaves := ls, tree := build_tree ls }

/-- `MerkleTree.get_root`: `self.tree[-1][0] if self.tree else None`.
`Except.error` models the `IndexError` that `[][0]` raises. -/
def get_root (t : MerkleTree) : Except String (Option String) :=
  match t.tree.getLast? with
  | some lvl =>
      match lvl.head? with
      | some h => .ok (some h)
      | none => .error "IndexError"
  | none => .ok none

/-- `MerkleTree.get_tree_height`: `len(self.tree)`. -/
def get_tree_height (t : MerkleTree) : Nat := t.tree.length

/-- One entry of a proof: `{'hash': ..., 'position': ...}`. The position is
kept as a raw string because `verify_proof` dispatches on its value. -/
structure ProofStep where
  hash : String
  position : String
deriving DecidableEq

/-- The loop of `get_proof` over `range(len(self.tree) - 1)`: at each level
the sibling index is `index ^ 1`; a step is appended only when it is in
bounds, then `index //= 2`. -/
def proofSteps : List (List String) → Nat → List ProofStep
  | [], _ => []
  | lvl :: rest, idx =>
      (if idx ^^^ 1 < lvl.length then
        [{ hash := lvl.getD (idx ^^^ 1) "",
           position := if idx ^^^ 1 < idx then "left" else "right" }]
      else []) ++ proofSteps rest (idx / 2)

/-- `MerkleTree.get_proof`: raises `IndexError` unless `0 <= index < len(leaves)`. -/
def get_proof (t : MerkleTree) (index : Int) : Except String (List ProofStep) :=
  if index < 0 ∨ (t.leaves.length : Int) ≤ index then .error "Index out of bounds"
  else .ok (proofSteps t.tree.dropLast index.toNat)

/-- One iteration of the `verify_proof` loop: combine on "left"/"right",
leave the running hash unchanged on any other position value. -/
def verifyStep (cur : String) (s : ProofStep) : String :=
  if s.position = "left" then hash_str (s.hash ++ cur)
  else if s.position = "right" then hash_str (cur ++ s.hash)
  else cur

/-- `MerkleTree.verify_proof`: fold the steps over the leaf hash and compare
with the candidate root. -/
def verify_proof (leaf : Item) (proof : List ProofStep) (root : String) : Bool :=
  proof.foldl verifyStep (hash_data leaf) == root

/-- The round-trip of the spec: `verify_proof(items[i], get_proof(i), get_root())`
on the tree built from `items` (false when either call fails). -/
def roundTrip (items : List Item) (index : Int) : Bool :=
  match get_proof (mkTree items) index, get_root (mkTree items) with
  | .ok p, .ok (some r) => verify_proof (items.getD index.toNat (Item.str "")) p r
  | _, _ => false

/-- The nested `combine_hashes` helper of `check_integrity` (question3).
`none, none` models the `TypeError` that `hashlib.sha256(None)` raises. -/
def combine_hashes : Option String → Option String → Option String
  | none, none => none
  | none, some r => some (hash_str r)
  | some l, none => some (hash_str l)
  | some l, some r => some (hash_str (l ++ r))

/-- The inner loop of `check_integrity` over `i in range(len(self.tree[level]))`:
note that both the checked node `tree[level][i]` and the combined children
`tree[level][2i]`, `tree[level][2i+1]` are read from the same level. -/
def checkLevelGo (lvl : List String) : Nat → Nat → Option Bool
  | _, 0 => some true
  | i, fuel+1 =>
      let left := if 2*i < lvl.length then some (lvl.getD (2*i) "") else none
      let right := if 2*i+1 < lvl.length then some (lvl.getD (2*i+1) "") else none
      match combine_hashes left right with
      | none => none
      | some comb => if lvl.getD i "" ≠ comb then some false else checkLevelGo lvl (i+1) fuel

def checkLevel (lvl : List String) : Option Bool := checkLevelGo lvl 0 lvl.length

/-- The outer loop of `check_integrity` over
`level in range(len(self.tree) - 2, -1, -1)`. -/
def checkLevels : List (List String) → Option Bool
  | [] => some true
  | lvl :: rest =>
      match checkLevel lvl with
      | none => none
      | some false => some false
      | some true => checkLevels rest

/-- `MerkleTree.check_integrity`: scan every level except the top one, from
the second-to-last level down to the leaves. -/
def check_integrity (t : MerkleTree) : Option Bool :=
  checkLevels t.tree.dropLast.reverse

/-- `MerkleTree.update_leaf` (question5/question6): validate the index,
replace the leaf hash, rebuild the whole tree. -/
def update_leaf (t : MerkleTree) (index : Int) (new_value : Item) : Except String MerkleTree :=
  if index < 0 ∨ (t.leaves.length : Int) ≤ index then .error "Index out of bounds"
  else
    let ls := t.leaves.set index.toNat (hash_data new_value)
    .ok { leaves := ls, tree := build_tree ls }

/-- The shape invariant of claim C5: level 0 is the leaf list, each level
has ceil(half) the length of the one below, the top level is a single hash,
and the number of levels is `ceil(log2 n) + 1` (which is `1` when `n = 1`,
since `Nat.clog 2 1 = 0`). -/
def treeShapeOK (t : MerkleTree) : Prop :=
  t.tree.getD 0 [] = t.leaves ∧
  (∀ k, k + 1 < t.tree.length →
    (t.tree.getD (k+1) []).length = ((t.tree.getD k []).length + 1) / 2) ∧
  (t.tree.getLastD []).length = 1 ∧
  get_tree_height t = Nat.clog 2 t.leaves.length + 1

/-! ## Structural lemmas about the builder -/

theorem build_level_length (l : List String) :
    (build_level l).length = (l.length + 1) / 2 := by
  induction l using build_level.induct with
  | case1 => simp [build_level]
  | case2 x => simp [build_level]
  | case3 x y rest ih => simp [build_level, ih]; omega

theorem buildRestFuel_nil (fuel : Nat) : buildRestFuel fuel [] = [] := by
  cases fuel <;> simp [buildRestFuel]

theorem buildRestFuel_congr (f1 : Nat) :
    ∀ f2 cur, cur.length ≤ f1 → cur.length ≤ f2 →
      buildRestFuel f1 cur = buildRestFuel f2 cur := by
  induction f1 with
  | zero =>
      intro f2 cur h1 _
      have : cur = [] := List.eq_nil_of_length_eq_zero (Nat.le_zero.mp h1)
      subst this
      rw [buildRestFuel_nil, buildRestFuel_nil]
  | succ f1 ih =>
      intro f2 cur h1 h2
      cases f2 with
      | zero =>
          have : cur = [] := List.eq_nil_of_length_eq_zero (Nat.le_zero.mp h2)
          subst this
          rw [buildRestFuel_nil, buildRestFuel_nil]
      | succ f2 =>
          by_cases hlen : 1 < cur.length
          · simp only [buildRestFuel, if_pos hlen]
            have hlt : (build_level cur).length ≤ f1 := by
              rw [build_level_length]; omega
            have hlt2 : (build_level cur).length ≤ f2 := by
              rw [build_level_length]; omega
            rw [ih f2 (build_level cur) hlt hlt2]
          · simp only [buildRestFuel, if_neg hlen]

theorem build_tree_single {leaves : List String} (h : leaves.length ≤ 1) :
    build_tree leaves = [leaves] := by
  unfold build_tree
  have : buildRestFuel leaves.length leaves = [] := by
    cases hl : leaves.length with
    | zero => simp [buildRestFuel]
    | succ n =>
        have hn : n = 0 := by omega
        subst hn
        simp [buildRestFuel, hl]
  rw [this]

theorem build_tree_cons {leaves : List String} (h : 1 < leaves.length) :
    build_tree leaves = leaves :: build_tree (build_level leaves) := by
  unfold build_tree
  obtain ⟨n, hn⟩ : ∃ n, leaves.length = n + 1 := ⟨leaves.length - 1, by omega⟩
  rw [hn]
  simp only [buildRestFuel, if_pos h]
  refine congrArg _ (congrArg _ ?_)
  apply buildRestFuel_congr
  · rw [build_level_length]; omega
  · exact le_rfl

theorem build_tree_head (leaves : List String) :
    (build_tree leaves).getD 0 [] = leaves := rfl

theorem build_tree_ne_nil (leaves : List String) : build_tree leaves ≠ [] := by
  unfold build_tree; simp

theorem build_level_ne_nil {l : List String} (h : l ≠ []) : build_level l ≠ [] := by
  have hp : 0 < (build_level l).length := by
    rw [build_level_length]
    have : 0 < l.length := List.length_pos.mpr h
    omega
  exact List.ne_nil_of_length_pos hp

theorem build_tree_chain :
    ∀ (ls : List String) (k : Nat), k + 1 < (build_tree ls).length →
      (build_tree ls).getD (k+1) [] = build_level ((build_tree ls).getD k []) := by
  have main : ∀ n (ls : List String), ls.length = n →
      ∀ k, k + 1 < (build_tree ls).length →
        (build_tree ls).getD (k+1) [] = build_level ((build_tree ls).getD k []) := by
    intro n
    induction n using Nat.strong_induction_on with
    | _ n ih =>
        intro ls hn k hk
        by_cases h : 1 < ls.length
        · rw [build_tree_cons h] at hk ⊢
          cases k with
          | zero =>
              simp only [List.getD_cons_succ, List.getD_cons_zero]
              exact build_tree_head (build_level ls)
          | succ k =>
              simp only [List.getD_cons_succ]
              have hllt : (build_level ls).length < n := by
                rw [build_level_length]; omega
              apply ih (build_level ls).length hllt (build_level ls) rfl k
              simpa using hk
        · rw [build_tree_single (by omega)] at hk
          simp at hk
  exact fun ls => main ls.length ls rfl

theorem getLastD_cons_ne {α : Type} (x : α) {xs : List α} (h : xs ≠ []) (d : α) :
    (x :: xs).getLastD d = xs.getLastD d := by
  cases xs with
  | nil => exact absurd rfl h
  | cons b l => simp [List.getLastD_eq_getLast?, List.getLast?_cons_cons]

theorem build_tree_last_length :
    ∀ (ls : List String), ls ≠ [] → ((build_tree ls).getLastD []).length = 1 := by
  have main : ∀ n (ls : List String), ls.length = n → ls ≠ [] →
      ((build_tree ls).getLastD []).length = 1 := by
    intro n
    induction n using Nat.strong_induction_on with
    | _ n ih =>
        intro ls hn hne
        by_cases h : 1 < ls.length
        · rw [build_tree_cons h]
          have hbne : build_tree (build_level ls) ≠ [] := build_tree_ne_nil _
          have hlne : build_level ls ≠ [] := build_level_ne_nil hne
          have hllt : (build_level ls).length < n := by
            rw [build_level_length]; omega
          rw [getLastD_cons_ne ls hbne []]
          exact ih (build_level ls).length hllt (build_level ls) rfl hlne
        · have h1 : ls.length = 1 := by
            have : 0 < ls.length := List.length_pos.mpr hne
            omega
          rw [build_tree_single (by omega)]
          simpa using h1
  exact fun ls => main ls.length ls rfl

theorem build_tree_length :
    ∀ (ls : List String), ls ≠ [] →
      (build_tree ls).length = Nat.clog 2 ls.length + 1 := by
  have main : ∀ n (ls : List String), ls.length = n → ls ≠ [] →
      (build_tree ls).length = Nat.clog 2 ls.length + 1 := by
    intro n
    induction n using Nat.strong_induction_on with
    | _ n ih =>
        intro ls hn hne
        by_cases h : 1 < ls.length
        · rw [build_tree_cons h]
          have hlne : build_level ls ≠ [] := build_level_ne_nil hne
          have hllt : (build_level ls).length < n := by
            rw [build_level_length]; omega
          have hrec := ih (build_level ls).length hllt (build_level ls) rfl hlne
          have hclog : Nat.clog 2 ls.length = Nat.clog 2 ((ls.length + 1) / 2) + 1 := by
            have := Nat.clog_of_two_le (b := 2) (n := ls.length) one_lt_two (by omega)
            simpa using this
          simp only [List.length_cons, hrec, build_level_length, hclog]
        · have h1 : ls.length = 1 := by
            have : 0 < ls.length := List.length_pos.mpr hne
            omega
          rw [build_tree_single (by omega), h1]
          simp [Nat.clog_one_right]
  exact fun ls => main ls.length ls rfl

theorem treeShapeOK_build {ls : List String} (hne : ls ≠ []) :
    treeShapeOK { leaves := ls, tree := build_tree ls } := by
  refine ⟨build_tree_head ls, ?_, build_tree_last_length ls hne, build_tree_length ls hne⟩
  intro k hk
  rw [build_tree_chain ls k hk, build_level_length]

theorem mkTree_leaves (items : List Item) : (mkTree items).leaves = items.map hash_data := rfl

theorem mkTree_tree (items : List Item) :
    (mkTree items).tree = build_tree (items.map hash_data) := rfl

/-- Claim C5: every tree produced by construction or by a successful
`update_leaf` satisfies the shape invariant: level 0 holds one hash per
item in order, each level above has length `ceil(len(below) / 2)`, the top
level is a single hash, and `get_tree_height` is `ceil(log2 n) + 1`
(`Nat.clog 2 n + 1`, which is `1` when `n = 1`). -/
theorem merkle_shape_invariant (items : List Item) (t0 : MerkleTree) (i : Int) (v : Item)
    (t1 : MerkleTree) (hne : items ≠ []) (hupd : update_leaf t0 i v = Except.ok t1) :
    (treeShapeOK (mkTree items) ∧ (mkTree items).tree.getD 0 [] = items.map hash_data) ∧
    treeShapeOK t1 := by
  have hm : items.map hash_data ≠ [] := by simpa using hne
  constructor
  · constructor
    · exact treeShapeOK_build hm
    · rw [mkTree_tree]
      exact build_tree_head _
  · unfold update_leaf at hupd
    by_cases hc : i < 0 ∨ (t0.leaves.length : Int) ≤ i
    · rw [if_pos hc] at hupd
      exact absurd hupd (by simp)
    · rw [if_neg hc] at hupd
      push_neg at hc
      have ht1 : t1 = { leaves := t0.leaves.set i.toNat (hash_data v),
                        tree := build_tree (t0.leaves.set i.toNat (hash_data v)) } := by
        cases hupd
        rfl
      rw [ht1]
      apply treeShapeOK_build
      have hlen : (t0.leaves.set i.toNat (hash_data v)).length = t0.leaves.length := by
        simp
      have hpos : 0 < t0.leaves.length := by omega
      exact List.ne_nil_of_length_pos (by omega)

/-- Claim C5 witness: the invariant holds concretely for the 1-item tree
and for the tree after updating its only leaf. -/
theorem merkle_shape_invariant_witness :
    (([Item.str "a"] : List Item) ≠ [] ∧
     update_leaf (mkTree [Item.str "a"]) 0 (Item.str "b") = Except.ok (mkTree [Item.str "b"])) ∧
    (treeShapeOK (mkTree [Item.str "a"]) ∧ treeShapeOK (mkTree [Item.str "b"])) := by
  have hupd : update_leaf (mkTree [Item.str "a"]) 0 (Item.str "b") =
      Except.ok (mkTree [Item.str "b"]) := rfl
  have h := merkle_shape_invariant [Item.str "a"] (mkTree [Item.str "a"]) 0 (Item.str "b")
    (mkTree [Item.str "b"]) (by simp) hupd
  exact ⟨⟨by simp, hupd⟩, h.1.1, h.2⟩

/-- Claim C6: `update_leaf` fails with the out-of-range `IndexError` exactly
when the index is outside `[0, leaf_count)`; the check precedes any state
construction, so an erroring call produces no updated tree. -/
theorem update_leaf_out_of_range (t : MerkleTree) (i : Int) (v : Item) :
    update_leaf t i v = Except.error "Index out of bounds" ↔
      ¬(0 ≤ i ∧ i < (t.leaves.length : Int)) := by
  unfold update_leaf
  by_cases hc : i < 0 ∨ (t.leaves.length : Int) ≤ i
  · rw [if_pos hc]
    exact ⟨fun _ => by omega, fun _ => rfl⟩
  · rw [if_neg hc]
    push_neg at hc
    exact ⟨fun h => absurd h (by simp), fun h => absurd ⟨by omega, by omega⟩ h⟩

/-- Claim C7: `get_proof` fails with the out-of-range `IndexError` exactly
when the index is outside `[0, leaf_count)`; on the empty tree every index
fails. -/
theorem get_proof_out_of_range (t : MerkleTree) (i : Int) :
    (get_proof t i = Except.error "Index out of bounds" ↔
      ¬(0 ≤ i ∧ i < (t.leaves.length : Int))) ∧
    get_proof (mkTree []) i = Except.error "Index out of bounds" := by
  constructor
  · unfold get_proof
    by_cases hc : i < 0 ∨ (t.leaves.length : Int) ≤ i
    · rw [if_pos hc]
      exact ⟨fun _ => by omega, fun _ => rfl⟩
    · rw [if_neg hc]
      push_neg at hc
      exact ⟨fun h => absurd h (by simp), fun h => absurd ⟨by omega, by omega⟩ h⟩
  · unfold get_proof
    rw [if_pos]
    rw [mkTree_leaves]
    simp only [List.map_nil, List.length_nil, Int.ofNat_zero]
    omega

/-- Claim C2 (the code side): immediately after construction from the two
items "a" and "b", `check_integrity` returns `False`: the checker compares
`tree[level][i]` with the combination of `tree[level][2i]` and
`tree[level][2i+1]` taken from the same level, so the leaf level itself
fails at `i = 0`. -/
theorem check_integrity_after_construct_false :
    check_integrity (mkTree [Item.str "a", Item.str "b"]) = some false := by decide

/-- Claim C3 (the code side): on a tree built from an empty item sequence
the tree is `[[]]`, which is truthy, so `get_root` evaluates `[][0]` and
raises `IndexError` instead of returning the absent value. -/
theorem get_root_empty_raises :
    get_root (mkTree []) = Except.error "IndexError" := rfl

/-- Claim C4 counterexample: at the concrete child hash `hash_str "a"`, the
checker combination of a lone child is not the odd-node duplication hash
`Hash(child ‖ child)`. -/
theorem combine_hashes_not_duplication :
    combine_hashes (some (hash_str "a")) none ≠
      some (hash_str (hash_str "a" ++ hash_str "a")) := by decide

/-- Claim C4 amended: when the right child is absent, `combine_hashes`
produces the one-sided hash `Hash(child)`, while the builder pairs the
unmatched node with itself as `Hash(child ‖ child)`. -/
theorem combine_hashes_lone_child (child : String) :
    combine_hashes (some child) none = some (hash_str child) ∧
    build_level [child] = [hash_str (child ++ child)] := ⟨rfl, rfl⟩

/-! ## Canonical record hashing (claim C8) -/

instance : IsTotal (String × JVal) keyLE := ⟨fun a b => le_total a.1 b.1⟩

instance : IsTrans (String × JVal) keyLE := ⟨fun _ _ _ h1 h2 => le_trans h1 h2⟩

/-- Strict key order, used only to compare the two sorted serializations. -/
def keyLT (a b : String × JVal) : Prop := a.1 < b.1

instance : IsAntisymm (String × JVal) keyLT := ⟨fun _ _ h1 h2 => absurd h2 (lt_asymm h1)⟩

theorem pairwise_key_ne_of_nodup {l : List (String × JVal)}
    (h : (l.map Prod.fst).Nodup) : l.Pairwise (fun a b => a.1 ≠ b.1) := by
  simpa [List.Nodup, List.pairwise_map] using h

theorem insertionSort_eq_of_perm {l₁ l₂ : List (String × JVal)} (hperm : l₁.Perm l₂)
    (hnodup : (l₁.map Prod.fst).Nodup) :
    l₁.insertionSort keyLE = l₂.insertionSort keyLE := by
  have hp1 : (l₁.insertionSort keyLE).Perm l₁ := List.perm_insertionSort keyLE l₁
  have hp2 : (l₂.insertionSort keyLE).Perm l₂ := List.perm_insertionSort keyLE l₂
  have hp : (l₁.insertionSort keyLE).Perm (l₂.insertionSort keyLE) :=
    hp1.trans (hperm.trans hp2.symm)
  have hnodup2 : (l₂.map Prod.fst).Nodup := ((hperm.map Prod.fst).nodup_iff).mp hnodup
  have hne1 : (l₁.insertionSort keyLE).Pairwise (fun a b => a.1 ≠ b.1) :=
    pairwise_key_ne_of_nodup (((hp1.map Prod.fst).nodup_iff).mpr hnodup)
  have hne2 : (l₂.insertionSort keyLE).Pairwise (fun a b => a.1 ≠ b.1) :=
    pairwise_key_ne_of_nodup (((hp2.map Prod.fst).nodup_iff).mpr hnodup2)
  have hs1 : (l₁.insertionSort keyLE).Sorted keyLT :=
    ((List.sorted_insertionSort keyLE l₁).and hne1).imp
      (fun h => lt_of_le_of_ne h.1 h.2)
  have hs2 : (l₂.insertionSort keyLE).Sorted keyLT :=
    ((List.sorted_insertionSort keyLE l₂).and hne2).imp
      (fun h => lt_of_le_of_ne h.1 h.2)
  exact List.eq_of_perm_of_sorted hp hs1 hs2

/-- Claim C8: hashing a record is canonical: two records with the same
key/value pairs (a permutation, with keys unique as in a Python dict) hash
identically; a plain string is hashed as its raw UTF-8 bytes with no
canonicalization. -/
theorem hash_data_canonical (l₁ l₂ : List (String × JVal)) (s : String)
    (hperm : l₁.Perm l₂) (hnodup : (l₁.map Prod.fst).Nodup) :
    hash_data (Item.dict l₁) = hash_data (Item.dict l₂) ∧
    hash_data (Item.str s) = sha256hex (utf8Bytes s) := by
  refine ⟨?_, rfl⟩
  simp only [hash_data, json_dumps_sorted]
  rw [insertionSort_eq_of_perm hperm hnodup]

/-- Claim C8 witness: two concrete two-field records in opposite insertion
order hash identically. -/
theorem hash_data_canonical_witness :
    (([("b", JVal.jnum 2), ("a", JVal.jnum 1)] : List (String × JVal)).Perm
       [("a", JVal.jnum 1), ("b", JVal.jnum 2)] ∧
     (([("b", JVal.jnum 2), ("a", JVal.jnum 1)] : List (String × JVal)).map Prod.fst).Nodup) ∧
    hash_data (Item.dict [("b", JVal.jnum 2), ("a", JVal.jnum 1)]) =
      hash_data (Item.dict [("a", JVal.jnum 1), ("b", JVal.jnum 2)]) := by
  have h := hash_data_canonical [("b", JVal.jnum 2), ("a", JVal.jnum 1)]
    [("a", JVal.jnum 1), ("b", JVal.jnum 2)] "a" (List.Perm.swap _ _ _) (by decide)
  exact ⟨⟨List.Perm.swap _ _ _, by decide⟩, h.1⟩

/-! ## Proof round-trip on perfect (power-of-two) trees (claims C1, C9) -/

theorem xor_one_even (q : Nat) : (2 * q) ^^^ 1 = 2 * q + 1 := by
  have h2 : 2 * q = Nat.bit false q := by simp [Nat.bit_val]
  have h1 : (1 : Nat) = Nat.bit true 0 := rfl
  rw [h2, h1, Nat.xor_bit]
  simp [Nat.bit_val]

theorem xor_one_odd (q : Nat) : (2 * q + 1) ^^^ 1 = 2 * q := by
  have h2 : 2 * q + 1 = Nat.bit true q := by simp [Nat.bit_val]
  have h1 : (1 : Nat) = Nat.bit true 0 := rfl
  rw [h2, h1, Nat.xor_bit]
  simp [Nat.bit_val]

theorem build_level_getD (l : List String) :
    ∀ j, 2*j+1 < l.length →
      (build_level l).getD j "" = hash_str (l.getD (2*j) "" ++ l.getD (2*j+1) "") := by
  induction l using build_level.induct with
  | case1 => intro j h; simp at h
  | case2 x => intro j h; simp at h
  | case3 x y rest ih =>
      intro j h
      cases j with
      | zero => simp [build_level]
      | succ j =>
          have h2 : 2*j+1 < rest.length := by
            simp only [List.length_cons] at h; omega
          have e1 : 2*(j+1) = (2*j+1)+1 := by omega
          rw [e1]
          simp only [build_level, List.getD_cons_succ]
          exact ih j h2

theorem perfect_tree_aux :
    ∀ (k : Nat) (cur : List String), cur.length = 2^k → ∀ idx, idx < cur.length →
      (proofSteps (build_tree cur).dropLast idx).foldl verifyStep (cur.getD idx "") =
        ((build_tree cur).getLastD []).getD 0 "" ∧
      (proofSteps (build_tree cur).dropLast idx).length = k := by
  intro k
  induction k with
  | zero =>
      intro cur hlen idx hidx
      have h1 : cur.length = 1 := by simpa using hlen
      have h0 : idx = 0 := by omega
      subst h0
      rw [build_tree_single (by omega)]
      exact ⟨rfl, rfl⟩
  | succ k ih =>
      intro cur hlen idx hidx
      have hpow : (2:Nat)^(k+1) = 2 * 2^k := by rw [pow_succ]; ring
      have hkpos : 0 < (2:Nat)^k := Nat.pos_pow_of_pos k (by norm_num)
      have hgt : 1 < cur.length := by rw [hlen, hpow]; omega
      have hbl_len : (build_level cur).length = 2^k := by
        rw [build_level_length, hlen, hpow]; omega
      have hbt_ne : build_tree (build_level cur) ≠ [] := build_tree_ne_nil _
      rw [build_tree_cons hgt]
      have hdrop : (cur :: build_tree (build_level cur)).dropLast
          = cur :: (build_tree (build_level cur)).dropLast := by
        obtain ⟨a, l, hal⟩ : ∃ a l, build_tree (build_level cur) = a :: l := by
          cases hbt : build_tree (build_level cur) with
          | nil => exact absurd hbt hbt_ne
          | cons a l => exact ⟨a, l, rfl⟩
        rw [hal]
        rfl
      rw [hdrop, getLastD_cons_ne cur hbt_ne]
      have hq2 : idx = 2*(idx/2) ∨ idx = 2*(idx/2)+1 := by omega
      have hqlt : idx/2 < 2^k := by
        rw [hlen, hpow] at hidx; omega
      have hrec := ih (build_level cur) hbl_len (idx/2) (by rw [hbl_len]; exact hqlt)
      cases hq2 with
      | inl he =>
          have hsib : idx ^^^ 1 = 2*(idx/2)+1 := by
            conv_lhs => rw [he]
            exact xor_one_even (idx/2)
          have hsiblt : 2*(idx/2)+1 < cur.length := by rw [hlen, hpow]; omega
          have hnotlt : ¬(2*(idx/2)+1 < idx) := by omega
          simp only [proofSteps, hsib, if_pos hsiblt, if_neg hnotlt,
            List.singleton_append, List.foldl_cons, List.length_cons]
          have hstep : verifyStep (cur.getD idx "")
              { hash := cur.getD (2*(idx/2)+1) "", position := "right" } =
              (build_level cur).getD (idx/2) "" := by
            rw [build_level_getD cur (idx/2) hsiblt]
            conv_lhs => rw [he]
            simp [verifyStep]
          rw [hstep]
          exact ⟨hrec.1, by rw [hrec.2]⟩
      | inr he =>
          have hsib : idx ^^^ 1 = 2*(idx/2) := by
            conv_lhs => rw [he]
            exact xor_one_odd (idx/2)
          have hsiblt : 2*(idx/2) < cur.length := by omega
          have hlt : 2*(idx/2) < idx := by omega
          simp only [proofSteps, hsib, if_pos hsiblt, if_pos hlt,
            List.singleton_append, List.foldl_cons, List.length_cons]
          have hstep : verifyStep (cur.getD idx "")
              { hash := cur.getD (2*(idx/2)) "", position := "left" } =
              (build_level cur).getD (idx/2) "" := by
            have hsiblt2 : 2*(idx/2)+1 < cur.length := by omega
            rw [build_level_getD cur (idx/2) hsiblt2]
            conv_lhs => rw [he]
            simp only [verifyStep]
            have e3 : (2*(idx/2)+1)/2 = idx/2 := by omega
            simp [e3]
          rw [hstep]
          exact ⟨hrec.1, by rw [hrec.2]⟩

theorem getD_map (l : List Item) : ∀ n, n < l.length →
    (l.map hash_data).getD n "" = hash_data (l.getD n (Item.str "")) := by
  induction l with
  | nil => intro n h; simp at h
  | cons x xs ih =>
      intro n h
      cases n with
      | zero => rfl
      | succ n => simpa using ih n (by simpa using h)

theorem perfect_tree_proof (items : List Item) (k : Nat) (i : Int)
    (hk : items.length = 2^k) (h0 : 0 ≤ i) (hi : i < (items.length : Int)) :
    ∃ p r, get_proof (mkTree items) i = Except.ok p ∧
      p.length = get_tree_height (mkTree items) - 1 ∧
      get_root (mkTree items) = Except.ok (some r) ∧
      verify_proof (items.getD i.toNat (Item.str "")) p r = true := by
  have hlsl : (items.map hash_data).length = 2^k := by simpa using hk
  have hkpos : 0 < (2:Nat)^k := Nat.pos_pow_of_pos k (by norm_num)
  have hne : items.map hash_data ≠ [] := List.ne_nil_of_length_pos (by omega)
  have hnat : i.toNat < (items.map hash_data).length := by
    rw [List.length_map]; omega
  have hcond : ¬(i < 0 ∨ ((mkTree items).leaves.length : Int) ≤ i) := by
    rw [mkTree_leaves, List.length_map]; omega
  have hgp : get_proof (mkTree items) i =
      Except.ok (proofSteps (mkTree items).tree.dropLast i.toNat) := by
    unfold get_proof; rw [if_neg hcond]
  have hmain := perfect_tree_aux k (items.map hash_data) hlsl i.toNat hnat
  obtain ⟨lastl, hlast⟩ : ∃ y, (build_tree (items.map hash_data)).getLast? = some y := by
    cases hx : (build_tree (items.map hash_data)).getLast? with
    | none => exact absurd (List.getLast?_eq_none_iff.mp hx) (build_tree_ne_nil _)
    | some y => exact ⟨y, rfl⟩
  have hlastD : (build_tree (items.map hash_data)).getLastD [] = lastl := by
    rw [List.getLastD_eq_getLast?, hlast]
    rfl
  have hroot : get_root (mkTree items) = Except.ok (some (lastl.getD 0 "")) := by
    unfold get_root
    rw [mkTree_tree, hlast]
    have hlen1 : lastl.length = 1 := by
      rw [← hlastD]; exact build_tree_last_length _ hne
    obtain ⟨x, hx⟩ := List.length_eq_one.mp hlen1
    rw [hx]
    rfl
  refine ⟨_, lastl.getD 0 "", hgp, ?_, hroot, ?_⟩
  · rw [mkTree_tree, hmain.2]
    unfold get_tree_height
    rw [mkTree_tree, build_tree_length _ hne, hlsl, Nat.clog_pow 2 k one_lt_two]
    omega
  · unfold verify_proof
    rw [mkTree_tree]
    have hleaf : (items.map hash_data).getD i.toNat "" =
        hash_data (items.getD i.toNat (Item.str "")) :=
      getD_map items i.toNat (by rw [List.length_map] at hnat; exact hnat)
    rw [← hleaf, hmain.1, hlastD]
    exact beq_self_eq_true _

/-- Claim C1 counterexample: on the 3-item tree from "a", "b", "c" and the
valid index 2, the round-trip fails: the builder pairs the last node with
itself, but `get_proof` emits no step for the out-of-bounds sibling, so the
verifier never self-combines and the recomputed root differs. -/
theorem roundTrip_three_leaves_fails :
    roundTrip [Item.str "a", Item.str "b", Item.str "c"] 2 = false := by decide

/-- Claim C1 amended: for every tree constructed from a non-empty item list
whose length is a power of two, and every valid leaf index `i`,
`verify_proof(items[i], get_proof(i), get_root())` returns true; for other
leaf counts the round-trip can fail (e.g. 3 items at index 2). -/
theorem roundTrip_perfect (items : List Item) (k : Nat) (i : Int)
    (hk : items.length = 2^k) (h0 : 0 ≤ i) (hi : i < (items.length : Int)) :
    roundTrip items i = true := by
  obtain ⟨p, r, h1, _, h3, h4⟩ := perfect_tree_proof items k i hk h0 hi
  unfold roundTrip
  rw [h1, h3]
  exact h4

/-- Claim C1 witness: the amended round-trip at the concrete 2-item tree and
index 1. -/
theorem roundTrip_perfect_witness :
    (([Item.str "a", Item.str "b"] : List Item).length = 2^1 ∧ (0:Int) ≤ 1 ∧
      (1:Int) < (([Item.str "a", Item.str "b"] : List Item).length : Int)) ∧
    roundTrip [Item.str "a", Item.str "b"] 1 = true :=
  ⟨⟨by simp, by norm_num, by simp⟩,
    roundTrip_perfect [Item.str "a", Item.str "b"] 1 1 (by simp) (by norm_num) (by simp)⟩

/-- Claim C9: on a tree whose leaf count is a power of two, `get_proof`
succeeds at every valid index with exactly `height - 1` steps, and the
round-trip `verify_proof(items[i], get_proof(i), get_root())` is true. -/
theorem perfect_tree_roundtrip (items : List Item) (k : Nat) (i : Int)
    (hk : items.length = 2^k) (h0 : 0 ≤ i) (hi : i < (items.length : Int)) :
    ∃ p r, get_proof (mkTree items) i = Except.ok p ∧
      p.length = get_tree_height (mkTree items) - 1 ∧
      get_root (mkTree items) = Except.ok (some r) ∧
      verify_proof (items.getD i.toNat (Item.str "")) p r = true :=
  perfect_tree_proof items k i hk h0 hi

/-- Claim C9 witness: the perfect-tree round-trip at the concrete 4-item
tree ["a","b","c","d"] and index 2. -/
theorem perfect_tree_roundtrip_witness :
    (([Item.str "a", Item.str "b", Item.str "c", Item.str "d"] : List Item).length = 2^2 ∧
      (0:Int) ≤ 2 ∧
      (2:Int) < (([Item.str "a", Item.str "b", Item.str "c", Item.str "d"] :
        List Item).length : Int)) ∧
    (∃ p r, get_proof (mkTree [Item.str "a", Item.str "b", Item.str "c", Item.str "d"]) 2 =
        Except.ok p ∧
      p.length =
        get_tree_height (mkTree [Item.str "a", Item.str "b", Item.str "c", Item.str "d"]) - 1 ∧
      get_root (mkTree [Item.str "a", Item.str "b", Item.str "c", Item.str "d"]) =
        Except.ok (some r) ∧
      verify_proof (([Item.str "a", Item.str "b", Item.str "c", Item.str "d"] :
        List Item).getD (2:Int).toNat (Item.str "")) p r = true) :=
  ⟨⟨by simp, by norm_num, by simp⟩,
    perfect_tree_roundtrip [Item.str "a", Item.str "b", Item.str "c", Item.str "d"] 2 2
      (by simp) (by norm_num) (by simp)⟩

/-- Claim C10: `verify_proof` silently skips any step whose position is
neither "left" nor "right"; a proof made only of such steps verifies
exactly when the leaf hash equals the candidate root. -/
theorem verify_proof_skips_unknown (leaf : Item) (proof : List ProofStep) (root : String)
    (h : ∀ s ∈ proof, s.position ≠ "left" ∧ s.position ≠ "right") :
    verify_proof leaf proof root = (hash_data leaf == root) := by
  unfold verify_proof
  suffices hfold : ∀ (l : List ProofStep) (c : String),
      (∀ s ∈ l, s.position ≠ "left" ∧ s.position ≠ "right") → l.foldl verifyStep c = c by
    rw [hfold proof (hash_data leaf) h]
  intro l
  induction l with
  | nil => intro c _; rfl
  | cons s rest ih =>
      intro c hl
      have hs := hl s (List.mem_cons_self s rest)
      have hstep : verifyStep c s = c := by
        unfold verifyStep
        rw [if_neg hs.1, if_neg hs.2]
      rw [List.foldl_cons, hstep]
      exact ih c (fun x hx => hl x (List.mem_cons_of_mem s hx))

/-- Claim C10 witness: a single step with position "up" leaves the hash
unchanged, so it verifies against the bare leaf hash. -/
theorem verify_proof_skips_unknown_witness :
    (∀ s ∈ [ProofStep.mk "ff" "up"], s.position ≠ "left" ∧ s.position ≠ "right") ∧
    verify_proof (Item.str "a") [ProofStep.mk "ff" "up"] (hash_str "a") =
      (hash_data (Item.str "a") == hash_str "a") :=
  ⟨by decide, verify_proof_skips_unknown (Item.str "a") [ProofStep.mk "ff" "up"]
    (hash_str "a") (by decide)⟩
